import Mathlib

/-!
Verification of the bcp-exorcist CSV repair core (src/reader.rs, src/lib.rs).

Bytes are modelled as `Nat` (the Rust code works on `u8` values; every byte
literal used by the program is below 256 and no arithmetic is performed on
bytes, only equality tests, so no modular reduction is needed).

`exorsize_csv_batch` in reader.rs walks `memchr3_iter(sep, eol, b'"')`, i.e.
the ascending positions of the three needle bytes, copying the unmatched
spans verbatim and emitting a replacement at each match; the replacement for
`sep`/`eol` looks one byte back *within the same chunk* for a backslash.
`batchGo` below is the same scan written byte by byte: an ordinary byte is
copied (the verbatim span, byte at a time), a needle byte triggers the same
match arms in the same order (`sep` first, then `eol`, then the quote arm),
and the look-back is the raw previous byte of the chunk, `none` at position
0.  The output buffer is threaded as an accumulator exactly like the Rust
`buf: &mut Vec<u8>`.
-/

namespace BcpExorcist

/-- One step per haystack byte of `exorsize_csv_batch` (reader.rs lines
61-89).  `prev` is the raw previous haystack byte (`haystack[pos - 1]`),
`none` at position 0; `buf` is the output buffer being appended to. -/
def batchGo (sep eol : Nat) (prev : Option Nat) (haystack : List Nat) (buf : List Nat) : List Nat :=
  match haystack with
  | [] => buf
  | c :: rest =>
    if c = sep then
      batchGo sep eol (some c) rest
        (buf ++ (if prev = some 0x5C then [0x5C] else []) ++ [0x22, 0x2C, 0x22])
    else if c = eol then
      batchGo sep eol (some c) rest
        (buf ++ (if prev = some 0x5C then [0x5C] else []) ++ [0x22, 0x0A, 0x22])
    else if c = 0x22 then
      batchGo sep eol (some c) rest (buf ++ [0x5C, 0x22])
    else
      batchGo sep eol (some c) rest (buf ++ [c])

/-- `exorsize_csv_batch(haystack, buf, sep, eol)` from reader.rs: returns the
final contents of `buf` (the Rust function returns `Ok(())` and mutates
`buf`; it performs no I/O and cannot fail). -/
def exorsize_csv_batch (haystack buf : List Nat) (sep eol : Nat) : List Nat :=
  batchGo sep eol none haystack buf

/-- The buffer fix-up of `handle_closing` (reader.rs lines 91-112), before
the final `write_all`/`flush`: evaluated only when the length exceeds 1,
matching on the last byte (`out[len - 1]`) with a nested test of the
second-to-last byte (`out[len - 2]`) in the quote arm. -/
def handle_closing (out : List Nat) : List Nat :=
  if 1 < out.length then
    if out.getD (out.length - 1) 0 = 0x22 then
      if out.getD (out.length - 2) 0 = 0x0A then out.dropLast else out
    else if out.getD (out.length - 1) 0 = 0x0A then out
    else out ++ [0x22]
  else out

/-- Fuel-driven chunking: `reader.read(&mut buf)` on a `chunk_size`-byte
buffer yields `min chunk_size remaining` bytes per iteration until the input
is exhausted.  The fuel (instantiated with the input length) only forces
structural termination; each step consumes at least one byte when `0 < k`. -/
def chunksOfAux (k fuel : Nat) (l : List Nat) : List (List Nat) :=
  match fuel, l with
  | 0, _ => []
  | _ + 1, [] => []
  | f + 1, l => l.take k :: chunksOfAux k f (l.drop k)

/-- The sequence of chunks the read loop of `exorsize_csv` sees.  For
`k = 0` the Rust loop reads 0 bytes immediately and breaks, seeing no
chunks. -/
def chunksOf (k : Nat) (l : List Nat) : List (List Nat) :=
  if k = 0 then [] else chunksOfAux k l.length l

/-- The read/write loop of `exorsize_csv` (reader.rs lines 41-57), returning
every byte written to the sink: each iteration first writes the previous
iteration's buffer, clears it, and transcodes the new chunk into it; when
the read returns 0 bytes the loop breaks and `handle_closing` fixes up and
writes the still-pending buffer. -/
def streamLoop (sep eol : Nat) (chunks : List (List Nat)) (out : List Nat) : List Nat :=
  match chunks with
  | [] => handle_closing out
  | c :: rest => out ++ streamLoop sep eol rest (exorsize_csv_batch c [] sep eol)

/-- `exorsize_csv(input, output, size, chunk_size, opts)` from reader.rs:
the bytes written to `output`.  The buffer is seeded with one opening quote
exactly when `size > 0`. -/
def exorsize_csv (input : List Nat) (size chunk_size sep eol : Nat) : List Nat :=
  streamLoop sep eol (chunksOf chunk_size input) (if 0 < size then [0x22] else [])

/-- The final byte of the batch transcoder's view of the previous chunk is
irrelevant in the source (no state crosses chunk boundaries); a boundary is
harmless when the earlier chunk does not end in a backslash that the later
chunk follows with a separator or terminator byte. -/
def NoStraddle (sep eol : Nat) (a b : List Nat) : Prop :=
  ¬ (a.getLast? = some 0x5C ∧ (b.head? = some sep ∨ b.head? = some eol))

instance (sep eol : Nat) (a b : List Nat) : Decidable (NoStraddle sep eol a b) := by
  unfold NoStraddle
  infer_instance

/-- Every adjacent pair of chunks is boundary-safe (`NoStraddle`). -/
def chunksOKb (sep eol : Nat) (chunks : List (List Nat)) : Bool :=
  match chunks with
  | [] => true
  | [_] => true
  | a :: b :: rest => decide (NoStraddle sep eol a b) && chunksOKb sep eol (b :: rest)

/-- The last chunk of a chunk list (`[]` when there is none). -/
def lastChunk (chunks : List (List Nat)) : List Nat :=
  match chunks with
  | [] => []
  | [c] => c
  | _ :: rest => lastChunk rest

/-- The previous-byte marker after scanning `a` starting from marker `p`:
the last byte of `a` when `a` is nonempty, else `p` unchanged. -/
def lastPrev (a : List Nat) (p : Option Nat) : Option Nat :=
  match a.getLast? with
  | some x => some x
  | none => p

/-- `unwrap_byte` from lib.rs (lines 9-24): a one-byte option is accepted,
an absent or zero-length option yields the default, anything longer is a
`TypeError`; the error payload models the message's data (the offending
bytes and their length — the exact UTF-8-lossy formatting is abstracted). -/
def unwrap_byte (input : Option (List Nat)) (default : Nat) : Except (List Nat × Nat) Nat :=
  match input with
  | some cs =>
    if cs.length = 1 then Except.ok (cs.getD 0 0)
    else if cs.length = 0 then Except.ok default
    else Except.error (cs, cs.length)
  | none => Except.ok default

/-- File-system operations the orchestration layer `exorcize_csv` (lib.rs
lines 67-98) performs before the transform runs. -/
inductive FsOp where
  | rename : String → String → FsOp
  | openFile : String → FsOp
  | create : String → FsOp
deriving DecidableEq

/-- The configuration-then-I/O phase of `exorcize_csv` in lib.rs: both bytes
are unwrapped (each `?` propagates a config error) strictly before the
rename/open/create sequence, so on error no `FsOp` is produced. -/
def exorcize_csv_setup (filepath : String) (delim newline : Option (List Nat)) :
    Except (List Nat × Nat) (Nat × Nat × List FsOp) :=
  match unwrap_byte delim 0x1E with
  | Except.error e => Except.error e
  | Except.ok sep =>
    match unwrap_byte newline 0x1D with
    | Except.error e => Except.error e
    | Except.ok eol =>
      Except.ok (sep, eol,
        [FsOp.rename filepath (filepath ++ ".bak"),
         FsOp.openFile (filepath ++ ".bak"),
         FsOp.create filepath])

/-- Whether the setup phase aborted with a configuration error. -/
def isConfigError : Except (List Nat × Nat) (Nat × Nat × List FsOp) → Bool
  | Except.error _ => true
  | Except.ok _ => false

/-- The closing-normalization rule as the spec words it, corrected so that a
trailing quote whose predecessor is not a newline is left alone (matching
the code): on the reversed buffer, a final quote is dropped after a newline
and otherwise kept, a final newline is kept, and any other final byte gets a
closing quote appended; buffers of length 0 or 1 are unchanged. -/
def closing_spec_amended (out : List Nat) : List Nat :=
  match out.reverse with
  | a :: b :: _ =>
    if a = 0x22 then
      if b = 0x0A then out.dropLast else out
    else if a = 0x0A then out
    else out ++ [0x22]
  | _ => out

/-- The closing-normalization rule exactly as claim C2 states it: drop a
trailing quote after a newline; keep a trailing newline; in *every* other
case append a closing quote. -/
def closing_spec_claimed (out : List Nat) : List Nat :=
  match out.reverse with
  | a :: b :: _ =>
    if a = 0x22 ∧ b = 0x0A then out.dropLast
    else if a = 0x0A then out
    else out ++ [0x22]
  | _ => out

/-! ### Properties of the batch transcoder -/

/-- The batch scan only appends: output on `b1 ++ b2` is `b1` followed by the
output on `b2`. -/
theorem batchGo_buf (sep eol : Nat) (h : List Nat) :
    ∀ (p : Option Nat) (b1 b2 : List Nat),
      batchGo sep eol p h (b1 ++ b2) = b1 ++ batchGo sep eol p h b2 := by
  induction h with
  | nil => intro p b1 b2; rfl
  | cons c rest ih =>
    intro p b1 b2
    simp only [batchGo]
    split_ifs <;> (simp only [List.append_assoc]; exact ih _ _ _)

/-- Accumulator form: the buffer passed in is an untouched prefix. -/
theorem batchGo_acc (sep eol : Nat) (h : List Nat) (p : Option Nat) (buf : List Nat) :
    batchGo sep eol p h buf = buf ++ batchGo sep eol p h [] := by
  have hb := batchGo_buf sep eol h p buf []
  simpa using hb

/-- Splitting the haystack: scanning `a ++ l` is scanning `a`, then scanning
`l` with the previous-byte marker set to the last byte of `a`. -/
theorem batchGo_append (sep eol : Nat) (a : List Nat) :
    ∀ (l : List Nat) (p : Option Nat) (buf : List Nat),
      batchGo sep eol p (a ++ l) buf =
        batchGo sep eol (lastPrev a p) l (batchGo sep eol p a buf) := by
  induction a with
  | nil => intro l p buf; simp [lastPrev, batchGo]
  | cons c a2 ih =>
    intro l p buf
    have hlp : lastPrev (c :: a2) p = lastPrev a2 (some c) := by
      cases a2 with
      | nil => simp [lastPrev]
      | cons d a3 => simp [lastPrev, List.getLast?_cons_cons, List.getLast?_cons]
    rw [List.cons_append]
    simp only [batchGo]
    split_ifs <;> rw [ih, hlp]

/-- `lastPrev` from a `none` start is just the last byte of the scanned
part. -/
theorem lastPrev_none (a : List Nat) : lastPrev a none = a.getLast? := by
  unfold lastPrev
  cases a.getLast? <;> rfl

/-- The previous-byte marker only matters when the next byte is a separator
or terminator match preceded by a backslash. -/
theorem batchGo_prev (sep eol : Nat) (l : List Nat) (p : Option Nat) (buf : List Nat)
    (h : ¬ (p = some 0x5C ∧ (l.head? = some sep ∨ l.head? = some eol))) :
    batchGo sep eol p l buf = batchGo sep eol none l buf := by
  cases l with
  | nil => rfl
  | cons c rest =>
    simp only [batchGo]
    by_cases h1 : c = sep
    · have hp : ¬ (p = some 0x5C) := fun hp => h ⟨hp, Or.inl (by simp [h1])⟩
      simp [h1, hp]
    · by_cases h2 : c = eol
      · have hp : ¬ (p = some 0x5C) := fun hp => h ⟨hp, Or.inr (by simp [h2])⟩
        simp [h1, h2, hp]
      · simp [h1, h2]

/-- A haystack free of all three needle bytes is copied verbatim. -/
theorem batchGo_clean (sep eol : Nat) (l : List Nat) :
    ∀ (p : Option Nat) (buf : List Nat),
      (∀ b ∈ l, b ≠ sep ∧ b ≠ eol ∧ b ≠ 0x22) →
      batchGo sep eol p l buf = buf ++ l := by
  induction l with
  | nil => intro p buf _; simp [batchGo]
  | cons c rest ih =>
    intro p buf hcl
    obtain ⟨h1, h2, h3⟩ := hcl c (List.mem_cons_self c rest)
    simp only [batchGo, if_neg h1, if_neg h2, if_neg h3]
    rw [ih (some c) (buf ++ [c]) (fun b hb => hcl b (List.mem_cons_of_mem c hb))]
    simp

/-! ### Properties of the chunking -/

/-- The fuel argument of `chunksOfAux` is irrelevant once it dominates the
input length. -/
theorem chunksOfAux_congr (k : Nat) (hk : 0 < k) :
    ∀ (f1 f2 : Nat) (l : List Nat),
      l.length ≤ f1 → l.length ≤ f2 → chunksOfAux k f1 l = chunksOfAux k f2 l := by
  intro f1
  induction f1 with
  | zero =>
    intro f2 l h1 _
    have hl : l = [] := List.eq_nil_of_length_eq_zero (Nat.le_zero.mp h1)
    subst hl
    cases f2 <;> rfl
  | succ f1 ih =>
    intro f2 l h1 h2
    cases l with
    | nil => cases f2 <;> rfl
    | cons c rest =>
      cases f2 with
      | zero => simp at h2
      | succ f2 =>
        simp only [chunksOfAux]
        congr 1
        apply ih
        · simp only [List.length_drop, List.length_cons]
          simp only [List.length_cons] at h1
          omega
        · simp only [List.length_drop, List.length_cons]
          simp only [List.length_cons] at h2
          omega

/-- Unfolding the chunking one read at a time. -/
theorem chunksOf_cons (k : Nat) (hk : 0 < k) (l : List Nat) (hl : l ≠ []) :
    chunksOf k l = l.take k :: chunksOf k (l.drop k) := by
  obtain ⟨c, rest, rfl⟩ := List.exists_cons_of_ne_nil hl
  have hk0 : ¬ (k = 0) := Nat.pos_iff_ne_zero.mp hk
  simp only [chunksOf, if_neg hk0, List.length_cons, chunksOfAux]
  congr 1
  apply chunksOfAux_congr k hk
  · simp only [List.length_drop, List.length_cons]
    omega
  · exact Nat.le_refl _

/-- No chunks come from an empty input. -/
theorem chunksOf_nil (k : Nat) : chunksOf k [] = [] := by
  unfold chunksOf
  split <;> rfl

/-- Concatenating the chunks recovers the input (bounded-length version for
induction). -/
theorem chunksOf_flatten_aux (k : Nat) (hk : 0 < k) :
    ∀ (n : Nat) (l : List Nat), l.length ≤ n → (chunksOf k l).flatten = l := by
  intro n
  induction n with
  | zero =>
    intro l h1
    have hl : l = [] := List.eq_nil_of_length_eq_zero (Nat.le_zero.mp h1)
    subst hl
    simp [chunksOf_nil]
  | succ n ih =>
    intro l h1
    by_cases hl : l = []
    · subst hl; simp [chunksOf_nil]
    · rw [chunksOf_cons k hk l hl, List.flatten_cons]
      rw [ih (l.drop k) ?_]
      · exact List.take_append_drop k l
      · have hlen : 0 < l.length := List.length_pos.mpr hl
        simp only [List.length_drop]
        omega

/-- Concatenating the chunks recovers the input. -/
theorem chunksOf_flatten (k : Nat) (hk : 0 < k) (l : List Nat) :
    (chunksOf k l).flatten = l :=
  chunksOf_flatten_aux k hk l.length l (Nat.le_refl _)

/-- Every chunk the read loop sees is nonempty. -/
theorem chunksOf_ne_nil_mem (k : Nat) (hk : 0 < k) :
    ∀ (n : Nat) (l : List Nat), l.length ≤ n → ∀ c ∈ chunksOf k l, c ≠ [] := by
  intro n
  induction n with
  | zero =>
    intro l h1 c hc
    have hl : l = [] := List.eq_nil_of_length_eq_zero (Nat.le_zero.mp h1)
    subst hl
    simp [chunksOf_nil] at hc
  | succ n ih =>
    intro l h1 c hc
    by_cases hl : l = []
    · subst hl; simp [chunksOf_nil] at hc
    · rw [chunksOf_cons k hk l hl] at hc
      rcases List.mem_cons.mp hc with hc | hc
      · subst hc
        obtain ⟨x, rest, rfl⟩ := List.exists_cons_of_ne_nil hl
        obtain ⟨k2, rfl⟩ := Nat.exists_eq_succ_of_ne_zero (Nat.pos_iff_ne_zero.mp hk)
        simp [List.take_succ_cons]
      · refine ih (l.drop k) ?_ c hc
        have hlen : 0 < l.length := List.length_pos.mpr hl
        simp only [List.length_drop]
        omega

/-- A nonempty input yields at least one chunk. -/
theorem chunksOf_ne_nil (k : Nat) (hk : 0 < k) (l : List Nat) (hl : l ≠ []) :
    chunksOf k l ≠ [] := by
  rw [chunksOf_cons k hk l hl]
  exact List.cons_ne_nil _ _

/-! ### Properties of the closing normalization -/

/-- Index `ys.length + 1` of `ys ++ [b, a]` is `a`. -/
theorem getD_pair_last (ys : List Nat) (b a : Nat) :
    (ys ++ [b, a]).getD (ys.length + 1) 0 = a := by
  induction ys with
  | nil => rfl
  | cons y ys ih => simpa using ih

/-- Index `ys.length` of `ys ++ [b, a]` is `b`. -/
theorem getD_pair_penultimate (ys : List Nat) (b a : Nat) :
    (ys ++ [b, a]).getD ys.length 0 = b := by
  induction ys with
  | nil => rfl
  | cons y ys ih => simpa using ih

/-- Every buffer the length guard admits splits off its last two bytes. -/
theorem exists_two (l : List Nat) (h : 1 < l.length) : ∃ ys b a, l = ys ++ [b, a] := by
  cases hr : l.reverse with
  | nil =>
    rw [List.reverse_eq_nil_iff] at hr
    subst hr
    simp at h
  | cons a t =>
    cases t with
    | nil =>
      have hl : l = [a] := by
        rw [← List.reverse_reverse l, hr, List.reverse_singleton]
      subst hl
      simp at h
    | cons b t2 =>
      refine ⟨t2.reverse, b, a, ?_⟩
      rw [← List.reverse_reverse l, hr]
      simp

/-- How `handle_closing` acts on the last two bytes of a long buffer. -/
theorem handle_closing_two (ys : List Nat) (b a : Nat) :
    handle_closing (ys ++ [b, a]) =
      if a = 0x22 then (if b = 0x0A then ys ++ [b] else ys ++ [b, a])
      else if a = 0x0A then ys ++ [b, a]
      else ys ++ [b, a, 0x22] := by
  have hlen : (ys ++ [b, a]).length = ys.length + 2 := by simp
  have hgt : 1 < (ys ++ [b, a]).length := by omega
  have h1 : (ys ++ [b, a]).getD ((ys ++ [b, a]).length - 1) 0 = a := by
    rw [hlen]
    simpa using getD_pair_last ys b a
  have h2 : (ys ++ [b, a]).getD ((ys ++ [b, a]).length - 2) 0 = b := by
    rw [hlen]
    simpa using getD_pair_penultimate ys b a
  have hdrop : (ys ++ [b, a]).dropLast = ys ++ [b] := by
    have heq : ys ++ [b, a] = (ys ++ [b]) ++ [a] := by simp
    rw [heq, List.dropLast_concat]
  simp only [handle_closing, if_pos hgt, h1, h2, hdrop]
  split_ifs <;> simp

/-- Buffers of length 0 or 1 are returned unchanged. -/
theorem handle_closing_short (out : List Nat) (h : out.length ≤ 1) :
    handle_closing out = out := by
  unfold handle_closing
  rw [if_neg (by omega)]

/-- A buffer ending in a newline is returned unchanged. -/
theorem handle_closing_last_nl (l : List Nat) (h : l.getLast? = some 0x0A) :
    handle_closing l = l := by
  by_cases hl : 1 < l.length
  · obtain ⟨ys, b, a, rfl⟩ := exists_two l hl
    have ha : a = 0x0A := by
      have hg : (ys ++ [b, a]).getLast? = some a := by
        rw [show ys ++ [b, a] = (ys ++ [b]) ++ [a] by simp, List.getLast?_concat]
      rw [hg] at h
      exact (Option.some.injEq _ _ ▸ h).symm ▸ rfl
    subst ha
    rw [handle_closing_two, if_neg (by norm_num), if_pos rfl]
  · exact handle_closing_short _ (by omega)

/-- The fix-up only touches the final two bytes: it commutes with a fixed
prefix as long as the pending tail keeps length at least 2. -/
theorem handle_closing_append (p t : List Nat) (h : 2 ≤ t.length) :
    handle_closing (p ++ t) = p ++ handle_closing t := by
  obtain ⟨ys, b, a, rfl⟩ := exists_two t (by omega)
  rw [show p ++ (ys ++ [b, a]) = (p ++ ys) ++ [b, a] by simp]
  rw [handle_closing_two, handle_closing_two]
  split_ifs <;> simp

/-! ### The stream driver as one whole-input scan plus one fix-up -/

/-- `lastChunk` skips the head of a longer list. -/
theorem lastChunk_cons_cons (a b : List Nat) (r : List (List Nat)) :
    lastChunk (a :: b :: r) = lastChunk (b :: r) := rfl

/-- The last chunk is one of the chunks. -/
theorem lastChunk_mem : ∀ (L : List (List Nat)), L ≠ [] → lastChunk L ∈ L := by
  intro L
  induction L with
  | nil => intro h; exact absurd rfl h
  | cons c rest ih =>
    intro _
    cases rest with
    | nil => simp [lastChunk]
    | cons c2 r2 =>
      rw [lastChunk_cons_cons]
      exact List.mem_cons_of_mem c (ih (List.cons_ne_nil _ _))

/-- The flattening is at least as long as its last block. -/
theorem lastChunk_length_le_flatten : ∀ (L : List (List Nat)),
    (lastChunk L).length ≤ L.flatten.length := by
  intro L
  induction L with
  | nil => simp [lastChunk]
  | cons c rest ih =>
    cases rest with
    | nil => simp [lastChunk]
    | cons c2 r2 =>
      rw [lastChunk_cons_cons, List.flatten_cons, List.length_append]
      omega

/-- `lastChunk` commutes with mapping a function that fixes `[]`. -/
theorem lastChunk_map (f : List Nat → List Nat) (hf : f [] = []) :
    ∀ (L : List (List Nat)), lastChunk (L.map f) = f (lastChunk L) := by
  intro L
  induction L with
  | nil => simp [lastChunk, hf]
  | cons c rest ih =>
    cases rest with
    | nil => simp [lastChunk]
    | cons c2 r2 => simpa [lastChunk_cons_cons] using ih

/-- Unpacking the boundary check on adjacent chunks. -/
theorem chunksOKb_cons (sep eol : Nat) (a b : List Nat) (r : List (List Nat))
    (h : chunksOKb sep eol (a :: b :: r) = true) :
    NoStraddle sep eol a b ∧ chunksOKb sep eol (b :: r) = true := by
  simpa [chunksOKb] using h

/-- Scanning across a safe boundary splits into two independent scans: the
whole-input scan agrees with the chunked scans when no backslash/needle pair
straddles the split. -/
theorem batchGo_safe_split (sep eol : Nat) (c f : List Nat)
    (h : ¬ (c.getLast? = some 0x5C ∧ (f.head? = some sep ∨ f.head? = some eol))) :
    batchGo sep eol none (c ++ f) [] =
      batchGo sep eol none c [] ++ batchGo sep eol none f [] := by
  rw [batchGo_append, batchGo_acc, lastPrev_none, batchGo_prev sep eol f c.getLast? [] h]

/-- The whole-input scan equals the concatenation of the per-chunk scans
when every adjacent chunk boundary is safe. -/
theorem batch_flatten (sep eol : Nat) : ∀ (chunks : List (List Nat)),
    (∀ c ∈ chunks, c ≠ []) → chunksOKb sep eol chunks = true →
    batchGo sep eol none chunks.flatten [] =
      (chunks.map (fun c => batchGo sep eol none c [])).flatten := by
  intro chunks
  induction chunks with
  | nil => intro _ _; simp [batchGo]
  | cons c rest ih =>
    intro hmem hok
    cases rest with
    | nil => simp
    | cons c2 r2 =>
      obtain ⟨hns, hok2⟩ := chunksOKb_cons sep eol c c2 r2 hok
      have hc2 : c2 ≠ [] := hmem c2 (by simp)
      have hhead : (c2 :: r2).flatten.head? = c2.head? := by
        obtain ⟨x, xs, rfl⟩ := List.exists_cons_of_ne_nil hc2
        simp
      rw [List.flatten_cons, batchGo_safe_split sep eol c (c2 :: r2).flatten ?_]
      · rw [ih (fun d hd => hmem d (List.mem_cons_of_mem c hd)) hok2]
        simp
      · rw [hhead]
        exact hns

/-- The read/write loop writes exactly the pending seed, then the chunked
transcoding of the whole input, with the closing fix-up applied to the tail
— provided every boundary is safe and the final chunk transcodes to at
least two bytes. -/
theorem streamLoop_spec (sep eol : Nat) : ∀ (chunks : List (List Nat)),
    chunks ≠ [] → (∀ c ∈ chunks, c ≠ []) → chunksOKb sep eol chunks = true →
    2 ≤ (batchGo sep eol none (lastChunk chunks) []).length →
    ∀ (pending : List Nat),
      streamLoop sep eol chunks pending =
        handle_closing (pending ++ batchGo sep eol none chunks.flatten []) := by
  intro chunks
  induction chunks with
  | nil => intro h; exact absurd rfl h
  | cons c rest ih =>
    intro _ hmem hok hlast pending
    cases rest with
    | nil =>
      simp only [streamLoop, exorsize_csv_batch]
      rw [handle_closing_append pending _ (by simpa [lastChunk] using hlast)]
      simp
    | cons c2 r2 =>
      obtain ⟨hns, hok2⟩ := chunksOKb_cons sep eol c c2 r2 hok
      have hmem2 : ∀ d ∈ c2 :: r2, d ≠ [] := fun d hd => hmem d (List.mem_cons_of_mem c hd)
      have hlast2 : 2 ≤ (batchGo sep eol none (lastChunk (c2 :: r2)) []).length := by
        rw [← lastChunk_cons_cons c]
        exact hlast
      have hc2 : c2 ≠ [] := hmem2 c2 (by simp)
      have hhead : (c2 :: r2).flatten.head? = c2.head? := by
        obtain ⟨x, xs, rfl⟩ := List.exists_cons_of_ne_nil hc2
        simp
      have hflat2 : 2 ≤ (batchGo sep eol none (c2 :: r2).flatten []).length := by
        rw [batch_flatten sep eol (c2 :: r2) hmem2 hok2]
        have hm := lastChunk_map (fun d => batchGo sep eol none d []) rfl (c2 :: r2)
        have hll := lastChunk_length_le_flatten ((c2 :: r2).map (fun d => batchGo sep eol none d []))
        rw [hm] at hll
        omega
      rw [show streamLoop sep eol (c :: c2 :: r2) pending =
            pending ++ streamLoop sep eol (c2 :: r2) (exorsize_csv_batch c [] sep eol) from rfl]
      rw [ih (List.cons_ne_nil _ _) hmem2 hok2 hlast2 (exorsize_csv_batch c [] sep eol)]
      conv_rhs => rw [List.flatten_cons]
      rw [batchGo_safe_split sep eol c (c2 :: r2).flatten (by rw [hhead]; exact hns)]
      rw [show pending ++ (batchGo sep eol none c [] ++ batchGo sep eol none (c2 :: r2).flatten []) =
            pending ++ batchGo sep eol none c [] ++ batchGo sep eol none (c2 :: r2).flatten [] by simp]
      rw [handle_closing_append (pending ++ batchGo sep eol none c []) _ hflat2]
      simp only [exorsize_csv_batch]
      rw [handle_closing_append (batchGo sep eol none c []) _ hflat2]
      simp

/-- The full transform on a nonempty input, under safe boundaries and a
final chunk that transcodes to two or more bytes, is the whole-input scan
preceded by the opening quote, with one closing fix-up at the end. -/
theorem exorsize_eq_whole (input : List Nat) (k sep eol : Nat) (hk : 0 < k)
    (hne : input ≠ [])
    (hok : chunksOKb sep eol (chunksOf k input) = true)
    (hlast : 2 ≤ (batchGo sep eol none (lastChunk (chunksOf k input)) []).length) :
    exorsize_csv input input.length k sep eol =
      handle_closing (0x22 :: batchGo sep eol none input []) := by
  unfold exorsize_csv
  rw [if_pos (List.length_pos.mpr hne)]
  rw [streamLoop_spec sep eol (chunksOf k input) (chunksOf_ne_nil k hk input hne)
    (chunksOf_ne_nil_mem k hk input.length input (Nat.le_refl _)) hok hlast [0x22]]
  rw [chunksOf_flatten k hk]
  rfl

/-! ### Membership helpers -/

/-- The head, when present, is a member. -/
theorem head_mem (l : List Nat) (x : Nat) (h : l.head? = some x) : x ∈ l := by
  cases l with
  | nil => simp at h
  | cons c rest =>
    simp only [List.head?_cons, Option.some.injEq] at h
    subst h
    exact List.mem_cons_self _ _

/-- The last element, when present, is a member. -/
theorem getLast?_mem (l : List Nat) (x : Nat) (h : l.getLast? = some x) : x ∈ l := by
  induction l with
  | nil => simp at h
  | cons c rest ih =>
    cases rest with
    | nil =>
      simp only [List.getLast?_singleton, Option.some.injEq] at h
      subst h
      simp
    | cons d r2 =>
      rw [List.getLast?_cons_cons] at h
      exact List.mem_cons_of_mem c (ih h)

/-- Prepending to a nonempty list does not change the last element. -/
theorem getLast?_cons_ne_nil (c : Nat) (l : List Nat) (h : l ≠ []) :
    (c :: l).getLast? = l.getLast? := by
  obtain ⟨x, xs, rfl⟩ := List.exists_cons_of_ne_nil h
  exact List.getLast?_cons_cons

/-- Bytes of chunks are bytes of the input. -/
theorem mem_chunksOf (k : Nat) (hk : 0 < k) (input : List Nat) (c : List Nat)
    (hc : c ∈ chunksOf k input) (b : Nat) (hb : b ∈ c) : b ∈ input := by
  have hbf : b ∈ (chunksOf k input).flatten := List.mem_flatten.mpr ⟨c, hc, hb⟩
  rwa [chunksOf_flatten k hk] at hbf

/-- Chunk lists whose bytes avoid both needles have only safe boundaries. -/
theorem chunksOKb_of_clean (sep eol : Nat) : ∀ (L : List (List Nat)),
    (∀ c ∈ L, ∀ b ∈ c, b ≠ sep ∧ b ≠ eol) → chunksOKb sep eol L = true := by
  intro L
  induction L with
  | nil => intro _; rfl
  | cons a rest ih =>
    intro h
    cases rest with
    | nil => rfl
    | cons b r =>
      have hns : NoStraddle sep eol a b := by
        rintro ⟨_, hh⟩
        rcases hh with hh | hh
        · exact (h b (by simp) sep (head_mem b sep hh)).1 rfl
        · exact (h b (by simp) eol (head_mem b eol hh)).2 rfl
      simp only [chunksOKb, Bool.and_eq_true, decide_eq_true_eq]
      exact ⟨hns, ih (fun c hc => h c (List.mem_cons_of_mem a hc))⟩

/-! ### Claim theorems -/

/-- C1 (amended): a non-empty input containing none of the separator,
terminator, or quote bytes, not ending in a newline byte, transforms (with
`total_size` the input length) to the input wrapped in one leading and one
trailing quote — provided the final chunk of the chosen positive chunk size
holds at least two bytes.  (The claim as frozen, for *any* positive chunk
size, fails: a final chunk of one byte leaves the buffer below the length
guard of `handle_closing`, so no trailing quote is appended — see the
counterexample.) -/
theorem c1_clean_wrap (input : List Nat) (k sep eol : Nat) (hk : 0 < k)
    (hne : input ≠ [])
    (hclean : ∀ b ∈ input, b ≠ sep ∧ b ≠ eol ∧ b ≠ 0x22)
    (hnl : input.getLast? ≠ some 0x0A)
    (hlast : 2 ≤ (lastChunk (chunksOf k input)).length) :
    exorsize_csv input input.length k sep eol = 0x22 :: (input ++ [0x22]) := by
  have hmemin : ∀ c ∈ chunksOf k input, ∀ b ∈ c, b ∈ input :=
    fun c hc b hb => mem_chunksOf k hk input c hc b hb
  have hok : chunksOKb sep eol (chunksOf k input) = true :=
    chunksOKb_of_clean sep eol _ (fun c hc b hb =>
      ⟨(hclean b (hmemin c hc b hb)).1, (hclean b (hmemin c hc b hb)).2.1⟩)
  have hlcmem : lastChunk (chunksOf k input) ∈ chunksOf k input :=
    lastChunk_mem _ (chunksOf_ne_nil k hk input hne)
  have hbatchlc : batchGo sep eol none (lastChunk (chunksOf k input)) [] =
      lastChunk (chunksOf k input) := by
    simpa using batchGo_clean sep eol _ none []
      (fun b hb => hclean b (hmemin _ hlcmem b hb))
  rw [exorsize_eq_whole input k sep eol hk hne hok (by rw [hbatchlc]; exact hlast)]
  rw [show batchGo sep eol none input [] = input by
    simpa using batchGo_clean sep eol input none [] hclean]
  obtain ⟨ys, b2, a2, heq⟩ := exists_two (0x22 :: input) (by
    have := List.length_pos.mpr hne
    simp only [List.length_cons]
    omega)
  have hga : input.getLast? = some a2 := by
    rw [← getLast?_cons_ne_nil 0x22 input hne, heq,
      show ys ++ [b2, a2] = (ys ++ [b2]) ++ [a2] by simp, List.getLast?_concat]
  have ha22 : ¬ (a2 = 0x22) := (hclean a2 (getLast?_mem input a2 hga)).2.2
  have ha0A : ¬ (a2 = 0x0A) := fun hh => hnl (hh ▸ hga)
  rw [heq, handle_closing_two, if_neg ha22, if_neg ha0A]
  rw [show ys ++ [b2, a2, 0x22] = (ys ++ [b2, a2]) ++ [0x22] by simp, ← heq]
  simp

/-- C1 witness: the amended statement at the concrete input `ab`, chunk
size 4. -/
theorem c1_clean_wrap_witness :
    (0 < 4 ∧ ([0x61, 0x62] : List Nat) ≠ [] ∧
      (∀ b ∈ ([0x61, 0x62] : List Nat), b ≠ 0x1E ∧ b ≠ 0x1D ∧ b ≠ 0x22) ∧
      ([0x61, 0x62] : List Nat).getLast? ≠ some 0x0A ∧
      2 ≤ (lastChunk (chunksOf 4 [0x61, 0x62])).length) ∧
    exorsize_csv [0x61, 0x62] ([0x61, 0x62] : List Nat).length 4 0x1E 0x1D =
      0x22 :: ([0x61, 0x62] ++ [0x22]) :=
  ⟨⟨by decide, by decide, by decide, by decide, by decide⟩,
   c1_clean_wrap [0x61, 0x62] 4 0x1E 0x1D (by decide) (by decide) (by decide)
     (by decide) (by decide)⟩

/-- C1 counterexample: the one-byte needle-free input `a` with
`total_size = 1` and chunk size 1024 — the claim as frozen promises
`"a"` (`[0x22, 0x61, 0x22]`), but the final (only) chunk transcodes to a
single byte, the length guard of `handle_closing` skips the fix-up, and the
output is `"a` with no trailing quote. -/
theorem c1_counterexample :
    exorsize_csv [0x61] 1 1024 0x1E 0x1D = [0x22, 0x61] ∧
    exorsize_csv [0x61] 1 1024 0x1E 0x1D ≠ 0x22 :: ([0x61] ++ [0x22]) := by
  constructor <;> decide

/-- C2 (amended): the closing fix-up follows the three-arm case split of
the code: a final quote is *removed* when preceded by a newline and left
alone otherwise, a final newline is left alone, any other final byte gets a
closing quote appended, and buffers of length 0 or 1 are unchanged.  (The
claim as frozen says a trailing quote not preceded by a newline falls into
the append case; the code leaves it unchanged — see the counterexample.) -/
theorem c2_closing_rule (out : List Nat) :
    handle_closing out = closing_spec_amended out := by
  by_cases h : 1 < out.length
  · obtain ⟨ys, b, a, rfl⟩ := exists_two out h
    have hrev : (ys ++ [b, a]).reverse = a :: b :: ys.reverse := by simp
    have hdrop : (ys ++ [b, a]).dropLast = ys ++ [b] := by
      rw [show ys ++ [b, a] = (ys ++ [b]) ++ [a] by simp, List.dropLast_concat]
    rw [handle_closing_two]
    simp only [closing_spec_amended, hrev, hdrop]
    split_ifs <;> simp
  · rw [handle_closing_short out (by omega)]
    cases out with
    | nil => rfl
    | cons x rest =>
      cases rest with
      | nil => rfl
      | cons y r2 => simp only [List.length_cons] at h; omega

/-- C2 counterexample: a buffer ending in a quote whose predecessor is not
a newline: the code returns it unchanged, while the claim's "in every other
case append one closing double quote" would append. -/
theorem c2_counterexample :
    handle_closing [0x41, 0x22] = [0x41, 0x22] ∧
    closing_spec_claimed [0x41, 0x22] = [0x41, 0x22, 0x22] ∧
    handle_closing [0x41, 0x22] ≠ closing_spec_claimed [0x41, 0x22] := by
  refine ⟨?_, ?_, ?_⟩ <;> decide

/-- C3 (amended): the transform is invariant under the chunk size as long
as every chunk boundary is safe (no backslash immediately before a boundary
followed by a separator or terminator byte) *and* under each chunking the
final chunk transcodes to at least two bytes.  (The claim as frozen, with
only the boundary condition, fails: a one-byte needle-free final chunk is
left below `handle_closing`'s length guard — see the counterexample.) -/
theorem c3_chunk_invariance (input : List Nat) (k1 k2 sep eol : Nat)
    (hk1 : 0 < k1) (hk2 : 0 < k2)
    (hok1 : chunksOKb sep eol (chunksOf k1 input) = true)
    (hok2 : chunksOKb sep eol (chunksOf k2 input) = true)
    (hlast1 : 2 ≤ (batchGo sep eol none (lastChunk (chunksOf k1 input)) []).length)
    (hlast2 : 2 ≤ (batchGo sep eol none (lastChunk (chunksOf k2 input)) []).length) :
    exorsize_csv input input.length k1 sep eol =
      exorsize_csv input input.length k2 sep eol := by
  have hne : input ≠ [] := by
    intro h
    subst h
    rw [chunksOf_nil] at hlast1
    simp [lastChunk, batchGo] at hlast1
  rw [exorsize_eq_whole input k1 sep eol hk1 hne hok1 hlast1,
    exorsize_eq_whole input k2 sep eol hk2 hne hok2 hlast2]

/-- C3 witness: the amended statement at the concrete input `abcd` with
chunk sizes 2 and 4. -/
theorem c3_chunk_invariance_witness :
    (0 < 2 ∧ 0 < 4 ∧
      chunksOKb 0x1E 0x1D (chunksOf 2 [0x61, 0x62, 0x63, 0x64]) = true ∧
      chunksOKb 0x1E 0x1D (chunksOf 4 [0x61, 0x62, 0x63, 0x64]) = true ∧
      2 ≤ (batchGo 0x1E 0x1D none (lastChunk (chunksOf 2 [0x61, 0x62, 0x63, 0x64])) []).length ∧
      2 ≤ (batchGo 0x1E 0x1D none (lastChunk (chunksOf 4 [0x61, 0x62, 0x63, 0x64])) []).length) ∧
    exorsize_csv [0x61, 0x62, 0x63, 0x64] ([0x61, 0x62, 0x63, 0x64] : List Nat).length 2 0x1E 0x1D =
      exorsize_csv [0x61, 0x62, 0x63, 0x64] ([0x61, 0x62, 0x63, 0x64] : List Nat).length 4 0x1E 0x1D :=
  ⟨⟨by decide, by decide, by decide, by decide, by decide, by decide⟩,
   c3_chunk_invariance [0x61, 0x62, 0x63, 0x64] 2 4 0x1E 0x1D (by decide) (by decide)
     (by decide) (by decide) (by decide) (by decide)⟩

/-- C3 counterexample: the two-byte needle-free input `ab` (no backslash
anywhere, so no escape sequence straddles any boundary) transforms
differently with chunk size 1 (`"ab`, the one-byte final chunk skips the
closing fix-up) and chunk size 2 (`"ab"`). -/
theorem c3_counterexample :
    chunksOKb 0x1E 0x1D (chunksOf 1 [0x61, 0x62]) = true ∧
    chunksOKb 0x1E 0x1D (chunksOf 2 [0x61, 0x62]) = true ∧
    exorsize_csv [0x61, 0x62] 2 1 0x1E 0x1D ≠ exorsize_csv [0x61, 0x62] 2 2 0x1E 0x1D := by
  refine ⟨?_, ?_, ?_⟩ <;> decide

/-- C5: the closing fix-up is idempotent: applying `handle_closing` to its
own output changes nothing. -/
theorem c5_idempotent (out : List Nat) :
    handle_closing (handle_closing out) = handle_closing out := by
  by_cases h : 1 < out.length
  · obtain ⟨ys, b, a, rfl⟩ := exists_two out h
    rw [handle_closing_two]
    by_cases h1 : a = 0x22
    · by_cases h2 : b = 0x0A
      · rw [if_pos h1, if_pos h2]
        subst h2
        exact handle_closing_last_nl _ (by rw [List.getLast?_concat])
      · rw [if_pos h1, if_neg h2, handle_closing_two, if_pos h1, if_neg h2]
    · by_cases h3 : a = 0x0A
      · rw [if_neg h1, if_pos h3, handle_closing_two, if_neg h1, if_pos h3]
      · rw [if_neg h1, if_neg h3]
        rw [show ys ++ [b, a, 0x22] = (ys ++ [b]) ++ [a, 0x22] by simp]
        rw [handle_closing_two, if_pos rfl, if_neg h3]
  · rw [handle_closing_short out (by omega), handle_closing_short out (by omega)]

/-- C4: a separator or terminator byte at position 0 of a chunk never
triggers the backslash passthrough — the emission starts with the close
quote and no extra backslash, whatever the previous chunk ended with (the
batch transcoder is not even given the previous chunk).  Concretely, the
input `a\␞b` chunked as `a\ | ␞b` (chunk size 2) loses the escape that the
single-chunk run (chunk size 4) emits. -/
theorem c4_no_crosschunk_escape (sep eol c : Nat) (rest buf : List Nat)
    (h : c = sep ∨ c = eol) :
    exorsize_csv_batch (c :: rest) buf sep eol =
      batchGo sep eol (some c) rest
        (buf ++ (if c = sep then [0x22, 0x2C, 0x22] else [0x22, 0x0A, 0x22])) ∧
    exorsize_csv [0x61, 0x5C, 0x1E, 0x62] 4 2 0x1E 0x1D =
      [0x22, 0x61, 0x5C, 0x22, 0x2C, 0x22, 0x62, 0x22] ∧
    exorsize_csv [0x61, 0x5C, 0x1E, 0x62] 4 4 0x1E 0x1D =
      [0x22, 0x61, 0x5C, 0x5C, 0x22, 0x2C, 0x22, 0x62, 0x22] := by
  refine ⟨?_, by decide, by decide⟩
  unfold exorsize_csv_batch
  by_cases hc : c = sep
  · simp [batchGo, hc]
  · have hce : c = eol := h.resolve_left hc
    subst hce
    simp [batchGo, hc]

/-- C4 witness: a chunk opening with the separator after a buffer `A`. -/
theorem c4_no_crosschunk_escape_witness :
    ((0x1E : Nat) = 0x1E ∨ (0x1E : Nat) = 0x1D) ∧
    (exorsize_csv_batch (0x1E :: [0x62]) [0x41] 0x1E 0x1D =
      batchGo 0x1E 0x1D (some 0x1E) [0x62]
        ([0x41] ++ (if (0x1E : Nat) = 0x1E then [0x22, 0x2C, 0x22] else [0x22, 0x0A, 0x22])) ∧
     exorsize_csv [0x61, 0x5C, 0x1E, 0x62] 4 2 0x1E 0x1D =
      [0x22, 0x61, 0x5C, 0x22, 0x2C, 0x22, 0x62, 0x22] ∧
     exorsize_csv [0x61, 0x5C, 0x1E, 0x62] 4 4 0x1E 0x1D =
      [0x22, 0x61, 0x5C, 0x5C, 0x22, 0x2C, 0x22, 0x62, 0x22]) :=
  ⟨Or.inl rfl, c4_no_crosschunk_escape 0x1E 0x1D 0x1E [0x62] [0x41] (Or.inl rfl)⟩

/-- C6: at a separator match whose predecessor within the chunk is a
backslash, the transcoder emits one extra literal backslash before the
close-quote/comma/reopen-quote sequence; and the single-chunk transform of
`a\␞b` is `"a\\","b"`. -/
theorem c6_backslash_passthrough (sep eol : Nat) (a rest buf : List Nat)
    (h : a.getLast? = some 0x5C) :
    exorsize_csv_batch (a ++ sep :: rest) buf sep eol =
      batchGo sep eol (some sep) rest
        (exorsize_csv_batch a buf sep eol ++ [0x5C, 0x22, 0x2C, 0x22]) ∧
    exorsize_csv [0x61, 0x5C, 0x1E, 0x62] 4 8 0x1E 0x1D =
      [0x22, 0x61, 0x5C, 0x5C, 0x22, 0x2C, 0x22, 0x62, 0x22] := by
  refine ⟨?_, by decide⟩
  unfold exorsize_csv_batch
  rw [batchGo_append, lastPrev_none, h]
  simp [batchGo]

/-- C6 witness: the chunk `\␞b`. -/
theorem c6_backslash_passthrough_witness :
    ([0x5C] : List Nat).getLast? = some 0x5C ∧
    (exorsize_csv_batch ([0x5C] ++ 0x1E :: [0x62]) [] 0x1E 0x1D =
      batchGo 0x1E 0x1D (some 0x1E) [0x62]
        (exorsize_csv_batch [0x5C] [] 0x1E 0x1D ++ [0x5C, 0x22, 0x2C, 0x22]) ∧
     exorsize_csv [0x61, 0x5C, 0x1E, 0x62] 4 8 0x1E 0x1D =
      [0x22, 0x61, 0x5C, 0x5C, 0x22, 0x2C, 0x22, 0x62, 0x22]) :=
  ⟨by decide, c6_backslash_passthrough 0x1E 0x1D [0x5C] [0x62] [] (by decide)⟩

/-- C7: a separator or terminator option longer than one byte makes the
setup fail with a configuration error before any file-system operation is
produced, while absent or zero-length options silently default to `0x1E`
and `0x1D`. -/
theorem c7_config_validation (fp : String) (d nl : Option (List Nat)) (cs : List Nat)
    (h : 2 ≤ cs.length) :
    exorcize_csv_setup fp (some cs) nl = Except.error (cs, cs.length) ∧
    isConfigError (exorcize_csv_setup fp d (some cs)) = true ∧
    exorcize_csv_setup fp none none =
      Except.ok (0x1E, 0x1D,
        [FsOp.rename fp (fp ++ ".bak"), FsOp.openFile (fp ++ ".bak"), FsOp.create fp]) ∧
    exorcize_csv_setup fp (some []) (some []) =
      Except.ok (0x1E, 0x1D,
        [FsOp.rename fp (fp ++ ".bak"), FsOp.openFile (fp ++ ".bak"), FsOp.create fp]) := by
  have h1 : ¬ (cs.length = 1) := by omega
  have h0 : ¬ (cs.length = 0) := by omega
  refine ⟨?_, ?_, rfl, rfl⟩
  · simp [exorcize_csv_setup, unwrap_byte, h1, h0]
  · cases hd : unwrap_byte d 0x1E with
    | error e =>
      simp only [exorcize_csv_setup]
      rw [hd]
      rfl
    | ok s =>
      simp only [exorcize_csv_setup]
      rw [hd]
      simp [unwrap_byte, h1, h0, isConfigError]

/-- C7 witness: a three-byte separator option, and defaults. -/
theorem c7_config_validation_witness :
    2 ≤ ([0x61, 0x62, 0x63] : List Nat).length ∧
    (exorcize_csv_setup "data.csv" (some [0x61, 0x62, 0x63]) none =
        Except.error ([0x61, 0x62, 0x63], ([0x61, 0x62, 0x63] : List Nat).length) ∧
     isConfigError (exorcize_csv_setup "data.csv" none (some [0x61, 0x62, 0x63])) = true ∧
     exorcize_csv_setup "data.csv" none none =
       Except.ok (0x1E, 0x1D,
         [FsOp.rename "data.csv" ("data.csv" ++ ".bak"),
          FsOp.openFile ("data.csv" ++ ".bak"), FsOp.create "data.csv"]) ∧
     exorcize_csv_setup "data.csv" (some []) (some []) =
       Except.ok (0x1E, 0x1D,
         [FsOp.rename "data.csv" ("data.csv" ++ ".bak"),
          FsOp.openFile ("data.csv" ++ ".bak"), FsOp.create "data.csv"])) :=
  ⟨by decide, c7_config_validation "data.csv" none none [0x61, 0x62, 0x63] (by decide)⟩

/-- C8: with `total_size = 0` and no input bytes, the transform writes
nothing, for every chunk size: no opening quote is seeded and the closing
fix-up leaves the empty buffer empty. -/
theorem c8_empty_input (k sep eol : Nat) :
    exorsize_csv [] 0 k sep eol = [] := by
  unfold exorsize_csv
  rw [chunksOf_nil]
  simp [streamLoop, handle_closing]

/-- C9: the batch transcoder only appends — the prior buffer content is an
unchanged prefix of its result — and an empty haystack appends nothing. -/
theorem c9_append_only (sep eol : Nat) (h buf : List Nat) :
    exorsize_csv_batch h buf sep eol = buf ++ exorsize_csv_batch h [] sep eol ∧
    exorsize_csv_batch [] buf sep eol = buf :=
  ⟨batchGo_acc sep eol h none buf, rfl⟩

/-- C10: the match arms are tried in the order separator, terminator,
quote: when the terminator byte equals the separator byte, every occurrence
is rewritten as a separator (close quote, comma, reopen quote); when the
separator byte is the double quote `0x22`, a quote byte is likewise
rewritten as a separator, never as an escaped quote; and the setup accepts
colliding one-byte options without complaint. -/
theorem c10_collision_order (d eol : Nat) (a b buf : List Nat) (fp : String) (z : Nat) :
    exorsize_csv_batch (a ++ d :: b) buf d d =
      batchGo d d (some d) b
        (exorsize_csv_batch a buf d d ++
          (if a.getLast? = some 0x5C then [0x5C] else []) ++ [0x22, 0x2C, 0x22]) ∧
    exorsize_csv_batch (a ++ 0x22 :: b) buf 0x22 eol =
      batchGo 0x22 eol (some 0x22) b
        (exorsize_csv_batch a buf 0x22 eol ++
          (if a.getLast? = some 0x5C then [0x5C] else []) ++ [0x22, 0x2C, 0x22]) ∧
    exorcize_csv_setup fp (some [z]) (some [z]) =
      Except.ok (z, z,
        [FsOp.rename fp (fp ++ ".bak"), FsOp.openFile (fp ++ ".bak"), FsOp.create fp]) := by
  refine ⟨?_, ?_, rfl⟩
  · unfold exorsize_csv_batch
    rw [batchGo_append, lastPrev_none]
    simp [batchGo]
  · unfold exorsize_csv_batch
    rw [batchGo_append, lastPrev_none]
    simp [batchGo]

end BcpExorcist
